import Mathlib

/-
Verification of the finmath time-series engine (rolling standard deviation,
rolling volatility, simple moving average, smoothed RSI, EMA) against its
natural-language specification.

Modelling conventions:
* C++ double arithmetic is embedded as exact rational arithmetic over ℚ;
  the claims under review are stated over exact real/rational arithmetic.
* A C++ function that may throw is embedded as a function into
  Except CppError; each distinct exception message string of the source is
  one constructor of CppError.
* std::sqrt is irrational-valued, so functions whose only irrational step is
  a final square root are embedded at the level of the radicand (the
  variance); theorems about standard deviations apply Real.sqrt to the
  embedded radicands.
* An out-of-bounds vector access (undefined behaviour in C++) is embedded as
  the distinguished error CppError.outOfBoundsAccess, produced exactly where
  the source performs the access.
-/

namespace Finmath

/-- Exception conditions of the C++ sources, one constructor per distinct
message string, plus a constructor marking an out-of-bounds vector access
(undefined behaviour in the C++). -/
inductive CppError where
  /-- message: Window size cannot be zero. (rolling_std_dev.cpp, rolling_volatility.cpp) -/
  | windowSizeCannotBeZero
  /-- message: Window size must be greater than 0. (simple_moving_average.cpp) -/
  | windowSizeMustBePositive
  /-- message: EMA window cannot be zero. (ema.cpp, ema_simd.cpp) -/
  | emaWindowCannotBeZero
  /-- message: EMA smoothing factor must be between 0 and 1 (exclusive). (ema.cpp, ema_simd.cpp) -/
  | emaSmoothingFactorOutOfRange
  /-- message: Window size must be at least 1. (rsi.cpp, rsi_simd.cpp) -/
  | windowSizeAtLeastOne
  /-- message: Window size is too large for the number of price returns. (rolling_volatility.cpp) -/
  | windowTooLargeForReturns
  /-- message: Insufficient data: requires at least 2 prices. (rolling_volatility.cpp, np variant) -/
  | insufficientDataTwoPrices
  /-- message: Window size must be smaller than the number of prices. (rolling_volatility.cpp, np variant) -/
  | windowMustBeSmallerThanPrices
  /-- message: Price must be positive for log return calculation. (rolling_volatility.cpp, np variant) -/
  | priceMustBePositive
  /-- message: Window size is larger than the number of log returns. (rolling_volatility.cpp, np variant) -/
  | windowLargerThanLogReturns
  /-- marker for an out-of-bounds std::vector element access, which is
  undefined behaviour in the C++ source rather than a thrown exception -/
  | outOfBoundsAccess
deriving DecidableEq, Repr

/-! ## Simple moving average (simple_moving_average.cpp) -/

/-- Embedding of simple_moving_average. For each window start i the source
sums data[i, i + window_size) with std::accumulate and divides by
window_size; window_size 0 throws, short input returns the empty vector. -/
def simple_moving_average (data : List ℚ) (window_size : ℕ) : Except CppError (List ℚ) :=
  if window_size = 0 then .error .windowSizeMustBePositive
  else if data.length < window_size then .ok []
  else .ok ((List.range (data.length - window_size + 1)).map
    (fun i => ((data.drop i).take window_size).sum / (window_size : ℚ)))

/-- Loop body of the sliding-sum loop of simple_moving_average_np: the
running sum gains data[i] and loses data[i - window_size], then the average
is pushed. -/
def smaNpStep (data : List ℚ) (window_size : ℕ) (s : ℚ × List ℚ) (i : ℕ) : ℚ × List ℚ :=
  let sum := s.1 + (data.getD i 0 - data.getD (i - window_size) 0)
  (sum, s.2 ++ [sum / (window_size : ℚ)])

/-- Embedding of simple_moving_average_np: the first average comes from a
direct sum of the first window, later averages from the incremental sliding
sum over indices window_size .. length - 1. -/
def simple_moving_average_np (data : List ℚ) (window_size : ℕ) : Except CppError (List ℚ) :=
  if window_size = 0 then .error .windowSizeMustBePositive
  else if data.length < window_size then .ok []
  else
    let firstSum := (data.take window_size).sum
    let init : ℚ × List ℚ := (firstSum, [firstSum / (window_size : ℚ)])
    .ok ((List.range' window_size (data.length - window_size)).foldl
      (smaNpStep data window_size) init).2

/-! ## Exponential moving average (ema.cpp, ema_simd.cpp) -/

/-- Loop body of compute_ema_with_smoothing: the source computes
ema[i] = (prices[i] - ema[i-1]) * smoothing_factor + ema[i-1]. -/
def emaStep (smoothing_factor : ℚ) (s : ℚ × List ℚ) (x : ℚ) : ℚ × List ℚ :=
  let v := (x - s.1) * smoothing_factor + s.1
  (v, s.2 ++ [v])

/-- Embedding of compute_ema_with_smoothing: rejects a smoothing factor
outside the open interval (0,1), maps empty input to empty output, and
otherwise runs the first-order recurrence seeded with the first price. -/
def compute_ema_with_smoothing (prices : List ℚ) (smoothing_factor : ℚ) :
    Except CppError (List ℚ) :=
  if smoothing_factor ≤ 0 ∨ 1 ≤ smoothing_factor then .error .emaSmoothingFactorOutOfRange
  else
    match prices with
    | [] => .ok []
    | p :: rest => .ok ((rest.foldl (emaStep smoothing_factor) (p, [p])).2)

/-- Embedding of compute_ema: window 0 throws, empty input short-circuits to
an empty result, otherwise the window is converted to the smoothing factor
2 / (window + 1) and compute_ema_with_smoothing runs. -/
def compute_ema (prices : List ℚ) (window : ℕ) : Except CppError (List ℚ) :=
  if window = 0 then .error .emaWindowCannotBeZero
  else if prices = [] then .ok []
  else compute_ema_with_smoothing prices (2 / ((window : ℚ) + 1))

/-- Loop body of compute_ema_with_smoothing_simd: the source computes the
algebraically rearranged form
ema[i] = prices[i] * smoothing_factor + ema[i-1] * (1 - smoothing_factor). -/
def emaStepSimd (smoothing_factor : ℚ) (s : ℚ × List ℚ) (x : ℚ) : ℚ × List ℚ :=
  let v := x * smoothing_factor + s.1 * (1 - smoothing_factor)
  (v, s.2 ++ [v])

/-- Embedding of compute_ema_with_smoothing_simd, identical to the list
version except for the rearranged per-step arithmetic. -/
def compute_ema_with_smoothing_simd (prices : List ℚ) (smoothing_factor : ℚ) :
    Except CppError (List ℚ) :=
  if smoothing_factor ≤ 0 ∨ 1 ≤ smoothing_factor then .error .emaSmoothingFactorOutOfRange
  else
    match prices with
    | [] => .ok []
    | p :: rest => .ok ((rest.foldl (emaStepSimd smoothing_factor) (p, [p])).2)

/-- Embedding of compute_ema_simd: window 0 throws and the call is delegated
directly (with no empty-input short circuit, unlike compute_ema). -/
def compute_ema_simd (prices : List ℚ) (window : ℕ) : Except CppError (List ℚ) :=
  if window = 0 then .error .emaWindowCannotBeZero
  else compute_ema_with_smoothing_simd prices (2 / ((window : ℚ) + 1))

/-- Modelled from the spec: the EMA recurrence ema[0] = input[0],
ema[i] = alpha * input[i] + (1 - alpha) * ema[i-1], written as a direct
recursion, used as the reference for the refinement claim about the EMA
implementations. Helper carrying the previous smoothed value. -/
def emaSpecFrom (alpha prev : ℚ) : List ℚ → List ℚ
  | [] => []
  | x :: xs =>
    let v := alpha * x + (1 - alpha) * prev
    v :: emaSpecFrom alpha v xs

/-- Modelled from the spec: full EMA reference sequence, empty on empty
input and otherwise seeded with the first element. -/
def ema_spec (alpha : ℚ) : List ℚ → List ℚ
  | [] => []
  | p :: rest => p :: emaSpecFrom alpha p rest

/-! ## Smoothed RSI (rsi.cpp, rsi_simd.cpp) -/

/-- Loop body of the smoothing loop of compute_smoothed_rsi: Wilder updates
of the average gain and loss (the source subtracts the negative change to
accumulate the loss) followed by one emitted RSI value. -/
def rsiStep (window_size : ℕ) (s : ℚ × ℚ × List ℚ) (change : ℚ) : ℚ × ℚ × List ℚ :=
  let avg_gain := (s.1 * ((window_size - 1 : ℕ) : ℚ) +
    (if 0 < change then change else 0)) / (window_size : ℚ)
  let avg_loss := (s.2.1 * ((window_size - 1 : ℕ) : ℚ) -
    (if change < 0 then change else 0)) / (window_size : ℚ)
  if avg_loss = 0 then (avg_gain, avg_loss, s.2.2 ++ [100])
  else (avg_gain, avg_loss, s.2.2 ++ [100 - 100 / (1 + avg_gain / avg_loss)])

/-- Embedding of compute_smoothed_rsi. The source first returns an empty
vector when there are not enough prices, only then validates the window; the
consecutive price changes are primed over the first window_size changes with
compute_avg_gain and compute_avg_loss, and the smoothing loop starts at
change index window_size - 1. -/
def compute_smoothed_rsi (prices : List ℚ) (window_size : ℕ) : Except CppError (List ℚ) :=
  if prices.length ≤ window_size then .ok []
  else if window_size < 1 then .error .windowSizeAtLeastOne
  else
    let price_changes := List.zipWith (fun a b => a - b) prices.tail prices
    let avg_gain := ((price_changes.take window_size).map
      (fun c => if 0 < c then c else 0)).sum / (window_size : ℚ)
    let avg_loss := ((price_changes.take window_size).map
      (fun c => if c < 0 then -c else 0)).sum / (window_size : ℚ)
    let rsi0 : ℚ := if avg_loss ≠ 0 then 100 - 100 / (1 + avg_gain / avg_loss) else 100
    .ok ((price_changes.drop (window_size - 1)).foldl (rsiStep window_size)
      (avg_gain, avg_loss, [rsi0])).2.2

/-- Embedding of the exact-arithmetic value of finmath::simd::vector_conditional_sum
(simd_helper.cpp): the sum of max(0, x) over the input for the positive flag
and of max(0, -x) otherwise; the SIMD lane splitting of the source only
reassociates this sum. -/
def vector_conditional_sum (a : List ℚ) (positive : Bool) : ℚ :=
  if positive then (a.map (fun x => max 0 x)).sum
  else (a.map (fun x => max 0 (-x))).sum

/-- Loop body of the smoothing loop of compute_smoothed_rsi_simd and
compute_smoothed_rsi_np, which accumulate the loss by adding the negated
negative change. -/
def rsiStepNp (window_size : ℕ) (s : ℚ × ℚ × List ℚ) (change : ℚ) : ℚ × ℚ × List ℚ :=
  let avg_gain := (s.1 * ((window_size - 1 : ℕ) : ℚ) +
    (if 0 < change then change else 0)) / (window_size : ℚ)
  let avg_loss := (s.2.1 * ((window_size - 1 : ℕ) : ℚ) +
    (if change < 0 then -change else 0)) / (window_size : ℚ)
  if avg_loss = 0 then (avg_gain, avg_loss, s.2.2 ++ [100])
  else (avg_gain, avg_loss, s.2.2 ++ [100 - 100 / (1 + avg_gain / avg_loss)])

/-- Embedding of compute_smoothed_rsi_simd: identical guard order to the
scalar version, priming through vector_conditional_sum, and a smoothing loop
that starts at change index window_size (one later than the scalar
version). -/
def compute_smoothed_rsi_simd (prices : List ℚ) (window_size : ℕ) : Except CppError (List ℚ) :=
  if prices.length ≤ window_size then .ok []
  else if window_size < 1 then .error .windowSizeAtLeastOne
  else
    let price_changes := List.zipWith (fun a b => a - b) prices.tail prices
    let avg_gain := vector_conditional_sum (price_changes.take window_size) true /
      (window_size : ℚ)
    let avg_loss := vector_conditional_sum (price_changes.take window_size) false /
      (window_size : ℚ)
    let rsi0 : ℚ := if avg_loss = 0 then 100 else 100 - 100 / (1 + avg_gain / avg_loss)
    .ok ((price_changes.drop window_size).foldl (rsiStepNp window_size)
      (avg_gain, avg_loss, [rsi0])).2.2

/-! ## Rolling volatility (rolling_volatility.cpp)

The C++ log, sqrt and the annualization factor sqrt(252) are irrational.
The embedding is parametric in the function applied to each price ratio
(written log below), since every claim under review about these functions
concerns control flow, error conditions and result lengths, none of which
depend on the numeric values of the logarithms; result entries are the
pre-sqrt radicands of compute_std, the strictly monotone postprocessing
sqrt and multiplication by sqrt(252) being dropped. -/

/-- Embedding of compute_log_returns: the ratio transform applied to each
consecutive pair, with no validation of any kind. -/
def compute_log_returns (log : ℚ → ℚ) (prices : List ℚ) : List ℚ :=
  List.zipWith (fun a b => log (a / b)) prices.tail prices

/-- Embedding of the radicand of compute_std: the mean of squares minus the
square of the mean (the naive one-pass form used by rolling_volatility.cpp);
the source returns the square root of this value. -/
def compute_std_sq (data : List ℚ) : ℚ :=
  let mean := data.sum / (data.length : ℚ)
  let sq_sum := (data.map (fun x => x * x)).sum
  sq_sum / (data.length : ℚ) - mean * mean

/-- Embedding of rolling_volatility (list version): computes the log
returns unconditionally and unchecked, then validates only the window size
against the number of returns, then emits one windowed standard deviation
per window position. -/
def rolling_volatility (log : ℚ → ℚ) (prices : List ℚ) (window_size : ℕ) :
    Except CppError (List ℚ) :=
  let log_returns := compute_log_returns log prices
  if window_size = 0 then .error .windowSizeCannotBeZero
  else if log_returns = [] ∨ log_returns.length < window_size then
    .error .windowTooLargeForReturns
  else .ok ((List.range (log_returns.length - window_size + 1)).map
    (fun i => compute_std_sq ((log_returns.drop i).take window_size)))

/-- Embedding of the log-return loop of rolling_volatility_np: index i runs
over 1 .. length - 1, the source checks prices[i - 1] <= 0 (the denominator
only, so the final price is never examined) and throws at the first
violation. -/
def logReturnsLoop (log : ℚ → ℚ) (prices : List ℚ) (acc : List ℚ) :
    List ℕ → Except CppError (List ℚ)
  | [] => .ok acc
  | i :: is =>
    if prices.getD i 0 ≤ 0 then .error .priceMustBePositive
    else logReturnsLoop log prices (acc ++ [log (prices.getD (i + 1) 0 / prices.getD i 0)]) is

/-- Checked log-return computation of rolling_volatility_np, running
logReturnsLoop over the loop indices 0 .. length - 2. -/
def log_returns_checked (log : ℚ → ℚ) (prices : List ℚ) : Except CppError (List ℚ) :=
  logReturnsLoop log prices [] (List.range (prices.length - 1))

/-- Embedding of rolling_volatility_np: validates the window size and the
price count first, then computes the positivity-checked log returns, retests
the window against the return count, and emits the windowed standard
deviations. -/
def rolling_volatility_np (log : ℚ → ℚ) (prices : List ℚ) (window_size : ℕ) :
    Except CppError (List ℚ) :=
  if window_size = 0 then .error .windowSizeCannotBeZero
  else if prices.length < 2 then .error .insufficientDataTwoPrices
  else if prices.length ≤ window_size then .error .windowMustBeSmallerThanPrices
  else
    match log_returns_checked log prices with
    | .error e => .error e
    | .ok log_returns =>
      if log_returns.length < window_size then .error .windowLargerThanLogReturns
      else .ok ((List.range (log_returns.length - window_size + 1)).map
        (fun i => compute_std_sq ((log_returns.drop i).take window_size)))

/-! ## Rolling standard deviation, incremental engine (rolling_std_dev.cpp)

Result entries are the radicands squared_sum / window; the source adds a
final std::sqrt per entry, which the theorems reapply through Real.sqrt. -/

/-- Loop body of the priming loop of rolling_std_dev_fast: the Welford-style
online update of the running mean and running sum of squared deviations,
with the 1-based element count carried in the first component. -/
def welfordStep (s : ℕ × ℚ × ℚ) (x : ℚ) : ℕ × ℚ × ℚ :=
  let old_mean := s.2.1
  let mean := old_mean + (x - old_mean) / ((s.1 : ℚ) + 1)
  (s.1 + 1, mean, s.2.2 + (x - old_mean) * (x - mean))

/-- Loop body of the sliding loop of rolling_std_dev_fast at index i, on the
state (mean, squared_sum, price_out, result): the mean moves by
(price_in - price_out) / window, the squared sum gains the entering
contribution and loses the leaving one relative to the new and old means,
result[i] receives the new radicand, and price_out becomes
prices[i - window + 1]. -/
def slideStep (prices : List ℚ) (window : ℕ) (s : ℚ × ℚ × ℚ × List ℚ) (i : ℕ) :
    ℚ × ℚ × ℚ × List ℚ :=
  let price_in := prices.getD i 0
  let old_mean := s.1
  let mean := old_mean + (price_in - s.2.2.1) / (window : ℚ)
  let squared_sum := s.2.1 + (price_in - mean) * (price_in - old_mean)
      - (s.2.2.1 - mean) * (s.2.2.1 - old_mean)
  (mean, squared_sum, prices.getD (i - window + 1) 0,
    s.2.2.2.set i (squared_sum / (window : ℚ)))

/-- Embedding of rolling_std_dev_fast: window 0 throws, a window larger than
the input shrinks to the input length, the first window is primed with
welfordStep, result[window - 1] receives the primed radicand — an access
that is out of bounds when the input is empty, since the shrunk window is
then 0 and the C++ index window - 1 wraps around — and the sliding loop
fills the remaining positions; all earlier positions stay 0. -/
def rolling_std_dev_fast (window_size : ℕ) (prices : List ℚ) : Except CppError (List ℚ) :=
  if window_size = 0 then .error .windowSizeCannotBeZero
  else
    let window := if prices.length < window_size then prices.length else window_size
    let primed := (prices.take window).foldl welfordStep (0, 0, 0)
    if window - 1 < prices.length then
      let result := (List.replicate prices.length (0 : ℚ)).set (window - 1)
        (primed.2.2 / (window : ℚ))
      .ok ((List.range' window (prices.length - window)).foldl
        (slideStep prices window) (primed.2.1, primed.2.2, prices.getD 0 0, result)).2.2.2
    else .error .outOfBoundsAccess

/-- Embedding of finmath::simd::vector_mean (simd_helper.cpp): 0 on an empty
input, the sum divided by the length otherwise. -/
def vector_mean (a : List ℚ) : ℚ :=
  if a.length = 0 then 0 else a.sum / (a.length : ℚ)

/-- Embedding of the radicand of finmath::simd::vector_stddev, that is of
finmath::simd::vector_variance (simd_helper.cpp): the two-pass population
variance — the mean first, then the mean of squared deviations from it; the
SIMD lane splitting of the source only reassociates the sums. -/
def vector_variance (a : List ℚ) : ℚ :=
  if a.length = 0 then 0
  else (a.map (fun x => (x - vector_mean a) * (x - vector_mean a))).sum / (a.length : ℚ)

/-! ## Generic loop and window-sum lemmas -/

/-- Invariant preservation along a left fold over a contiguous index range,
the shape of every indexed for loop of the engine. -/
lemma foldl_range'_inv {α : Type} (P : ℕ → α → Prop) (f : α → ℕ → α) :
    ∀ (n s : ℕ) (a : α), (∀ i b, s ≤ i → i < s + n → P i b → P (i + 1) (f b i)) →
      P s a → P (s + n) ((List.range' s n).foldl f a) := by
  intro n
  induction n with
  | zero => intro s a _ h; simpa using h
  | succ m ih =>
    intro s a hstep h
    rw [List.range'_succ, List.foldl_cons]
    have h2 := ih (s + 1) (f a s)
      (fun i b hi hib hb => hstep i b (by omega) (by omega) hb)
      (hstep s a le_rfl (by omega) h)
    have e : s + 1 + m = s + (m + 1) := by omega
    rwa [e] at h2

/-- Extending a window on the right adds the element at the right end. -/
lemma sum_take_drop_succ (l : List ℚ) (a b : ℕ) (h : a + b < l.length) :
    ((l.drop a).take (b + 1)).sum = ((l.drop a).take b).sum + l.getD (a + b) 0 := by
  rw [List.take_succ, List.sum_append, List.getElem?_drop,
    List.getElem?_eq_getElem h, List.getD_eq_getElem l 0 h]
  simp

/-- Shrinking a window on the left removes the element at the left end. -/
lemma sum_drop_succ_take (l : List ℚ) (a b : ℕ) (h : a < l.length) :
    ((l.drop (a + 1)).take b).sum = ((l.drop a).take (b + 1)).sum - l.getD a 0 := by
  rw [List.drop_eq_getElem_cons h, List.take_succ_cons, List.sum_cons,
    List.getD_eq_getElem l 0 h]
  ring

/-- Element access into the squared copy of a list. -/
lemma getD_map_sq (l : List ℚ) (i : ℕ) (h : i < l.length) :
    (l.map (fun x => x * x)).getD i 0 = l.getD i 0 * l.getD i 0 := by
  rw [List.getD_eq_getElem _ _ (by simpa using h), List.getElem_map,
    List.getD_eq_getElem l 0 h]

/-! ## Algebraic characterizations of the accumulators -/

/-- Sum of squared deviations from an arbitrary center, expanded into the
raw power sums. -/
lemma sum_sq_dev (l : List ℚ) (a : ℚ) :
    (l.map (fun x => (x - a) * (x - a))).sum
      = (l.map (fun x => x * x)).sum - 2 * a * l.sum + (l.length : ℚ) * (a * a) := by
  induction l with
  | nil => simp
  | cons y ys ih =>
    simp only [List.map_cons, List.sum_cons, List.length_cons, ih]
    push_cast
    ring

/-- The two-pass variance of vector_variance in terms of the raw power
sums. -/
lemma vector_variance_eq (l : List ℚ) :
    vector_variance l
      = ((l.map (fun x => x * x)).sum - l.sum * l.sum / (l.length : ℚ)) / (l.length : ℚ) := by
  rcases Nat.eq_zero_or_pos l.length with h | h
  · rw [List.length_eq_zero] at h
    subst h
    simp [vector_variance]
  · have hne : ((l.length : ℚ)) ≠ 0 := by positivity
    rw [vector_variance, if_neg (by omega), vector_mean, if_neg (by omega), sum_sq_dev]
    field_simp
    ring

/-- The Welford priming fold computes the running mean and the running sum
of squared deviations in closed form. -/
lemma welford_foldl (l : List ℚ) :
    l.foldl welfordStep (0, 0, 0) =
      (l.length, l.sum / (l.length : ℚ),
        (l.map (fun x => x * x)).sum - l.sum * l.sum / (l.length : ℚ)) := by
  induction l using List.reverseRecOn with
  | nil => simp
  | append_singleton ys x ih =>
    rw [List.foldl_append, ih, List.foldl_cons, List.foldl_nil]
    rcases Nat.eq_zero_or_pos ys.length with h | h
    · rw [List.length_eq_zero] at h
      subst h
      simp [welfordStep]
    · have hne : ((ys.length : ℚ)) ≠ 0 := by positivity
      simp only [welfordStep, List.length_append, List.sum_append, List.map_append,
        List.length_singleton, List.sum_singleton, List.map_cons, List.map_nil]
      refine Prod.ext (by simp) (Prod.ext ?_ ?_)
      · show ys.sum / (ys.length : ℚ) + (x - ys.sum / (ys.length : ℚ)) / ((ys.length : ℚ) + 1)
          = (ys.sum + x) / ((ys.length + 1 : ℕ) : ℚ)
        push_cast
        field_simp
        ring
      · show (ys.map (fun x => x * x)).sum - ys.sum * ys.sum / (ys.length : ℚ)
            + (x - ys.sum / (ys.length : ℚ))
              * (x - (ys.sum / (ys.length : ℚ) + (x - ys.sum / (ys.length : ℚ)) / ((ys.length : ℚ) + 1)))
          = (ys.map (fun x => x * x)).sum + x * x
            - (ys.sum + x) * (ys.sum + x) / ((ys.length + 1 : ℕ) : ℚ)
        push_cast
        field_simp
        ring


/-- Closed form of every accumulator and result entry of the sliding loop of
rolling_std_dev_fast, for a window that fits the data: each filled result
entry is exactly the two-pass window variance of vector_variance. -/
lemma rolling_std_dev_fast_spec (l : List ℚ) (w : ℕ) (h1 : 1 ≤ w) (h2 : w ≤ l.length) :
    ∃ res, rolling_std_dev_fast w l = .ok res ∧ res.length = l.length ∧
      ∀ j, j < l.length → res.getD j 0 =
        if w - 1 ≤ j then vector_variance ((l.drop (j + 1 - w)).take w) else 0 := by
  have hw0 : ¬ w = 0 := by omega
  have hwQ : ((w : ℚ)) ≠ 0 := Nat.cast_ne_zero.mpr hw0
  have hWlen : ∀ a : ℕ, a + w ≤ l.length → ((l.drop a).take w).length = w := by
    intro a ha
    rw [List.length_take, List.length_drop]
    omega
  have hvv : ∀ a : ℕ, a + w ≤ l.length →
      vector_variance ((l.drop a).take w)
        = ((((l.drop a).take w).map (fun x => x * x)).sum
            - ((l.drop a).take w).sum * ((l.drop a).take w).sum / (w : ℚ)) / (w : ℚ) := by
    intro a ha
    rw [vector_variance_eq, hWlen a ha]
  -- squared-copy versions of the two window-shift identities
  have hsq_succ : ∀ a b : ℕ, a + b < l.length →
      (((l.drop a).take (b + 1)).map (fun x => x * x)).sum
        = (((l.drop a).take b).map (fun x => x * x)).sum + l.getD (a + b) 0 * l.getD (a + b) 0 := by
    intro a b h
    simp only [List.map_take, List.map_drop]
    rw [sum_take_drop_succ (l.map (fun x => x * x)) a b (by simpa using h), getD_map_sq l _ h]
  have hsq_drop : ∀ a b : ℕ, a < l.length →
      (((l.drop (a + 1)).take b).map (fun x => x * x)).sum
        = (((l.drop a).take (b + 1)).map (fun x => x * x)).sum - l.getD a 0 * l.getD a 0 := by
    intro a b h
    simp only [List.map_take, List.map_drop]
    rw [sum_drop_succ_take (l.map (fun x => x * x)) a b (by simpa using h), getD_map_sq l _ h]
  simp only [rolling_std_dev_fast, if_neg hw0, if_neg (show ¬ l.length < w by omega),
    if_pos (show w - 1 < l.length by omega), welford_foldl]
  have hlt : (l.take w).length = w := by
    rw [List.length_take]
    omega
  rw [hlt]
  refine ⟨_, rfl, ?_⟩
  set P : ℕ → ℚ × ℚ × ℚ × List ℚ → Prop := fun i z =>
    z.1 = ((l.drop (i - w)).take w).sum / (w : ℚ) ∧
    z.2.1 = (((l.drop (i - w)).take w).map (fun x => x * x)).sum
            - ((l.drop (i - w)).take w).sum * ((l.drop (i - w)).take w).sum / (w : ℚ) ∧
    z.2.2.1 = l.getD (i - w) 0 ∧
    z.2.2.2.length = l.length ∧
    (∀ j, j < l.length → z.2.2.2.getD j 0 =
       if w - 1 ≤ j ∧ j < i then vector_variance ((l.drop (j + 1 - w)).take w) else 0)
    with hPdef
  have hinit : P w ((l.take w).sum / (w : ℚ),
      (List.map (fun x => x * x) (l.take w)).sum - (l.take w).sum * (l.take w).sum / (w : ℚ),
      l.getD 0 0,
      (List.replicate l.length (0 : ℚ)).set (w - 1)
        (((List.map (fun x => x * x) (l.take w)).sum
          - (l.take w).sum * (l.take w).sum / (w : ℚ)) / (w : ℚ))) := by
    rw [hPdef]
    have e0 : w - w = 0 := by omega
    refine ⟨by simp [e0], by simp [e0], by rw [e0], by simp, ?_⟩
    intro j hj
    rw [List.getD_eq_getD_get?, List.get?_eq_getElem?, List.getElem?_set]
    rcases eq_or_ne (w - 1) j with he | hne
    · subst he
      rw [if_pos rfl, if_pos (by simpa using hj)]
      rw [if_pos (by omega)]
      have hb : (w - 1) + 1 - w = 0 := by omega
      rw [hb, hvv 0 (by omega)]
      simp
    · rw [if_neg hne, List.getElem?_replicate]
      rw [if_pos (by simpa using hj)]
      rw [if_neg (by omega)]
      simp
  have hstep : ∀ i z, w ≤ i → i < w + (l.length - w) → P i z → P (i + 1) (slideStep l w z i) := by
    intro i z hwi hiN hz
    rw [hPdef] at hz ⊢
    obtain ⟨hm, hsq, hpo, hlen, hres⟩ := hz
    have hiN' : i < l.length := by omega
    have ha : i - w < l.length := by omega
    have haw : i - w + w = i := by omega
    have e1 : i + 1 - w = (i - w) + 1 := by omega
    have hS1 : ((l.drop (i + 1 - w)).take w).sum
        = ((l.drop (i - w)).take w).sum - l.getD (i - w) 0 + l.getD i 0 := by
      rw [e1, sum_drop_succ_take l (i - w) w ha, sum_take_drop_succ l (i - w) w (by omega), haw]
      ring
    have hS2 : (((l.drop (i + 1 - w)).take w).map (fun x => x * x)).sum
        = (((l.drop (i - w)).take w).map (fun x => x * x)).sum
          - l.getD (i - w) 0 * l.getD (i - w) 0 + l.getD i 0 * l.getD i 0 := by
      rw [e1, hsq_drop (i - w) w ha, hsq_succ (i - w) w (by omega), haw]
      ring
    have hvar : z.2.1 + (l.getD i 0 - (z.1 + (l.getD i 0 - z.2.2.1) / (w : ℚ)))
          * (l.getD i 0 - z.1)
        - (z.2.2.1 - (z.1 + (l.getD i 0 - z.2.2.1) / (w : ℚ))) * (z.2.2.1 - z.1)
        = (((l.drop (i + 1 - w)).take w).map (fun x => x * x)).sum
          - ((l.drop (i + 1 - w)).take w).sum * ((l.drop (i + 1 - w)).take w).sum / (w : ℚ) := by
      rw [hS1, hS2, hm, hsq, hpo]
      field_simp
      ring
    simp only [slideStep]
    refine ⟨?_, ?_, ?_, ?_, ?_⟩
    · rw [hm, hpo, hS1]
      field_simp
      ring
    · exact hvar
    · rw [e1]
    · simpa using hlen
    · intro j hj
      rw [List.getD_eq_getD_get?, List.get?_eq_getElem?, List.getElem?_set]
      rcases eq_or_ne i j with he | hne
      · subst he
        rw [if_pos rfl, if_pos (by rw [hlen]; omega), Option.getD_some, if_pos (by omega),
          hvv (i + 1 - w) (by omega), hvar]
      · rw [if_neg hne, ← List.get?_eq_getElem?, ← List.getD_eq_getD_get?, hres j hj]
        by_cases hc : w - 1 ≤ j ∧ j < i
        · rw [if_pos hc, if_pos (by omega)]
        · rw [if_neg hc, if_neg (by omega)]
  have hfin := foldl_range'_inv P (slideStep l w) (l.length - w) w _ hstep hinit
  rw [hPdef] at hfin
  have eN : w + (l.length - w) = l.length := by omega
  rw [eN] at hfin
  obtain ⟨-, -, -, hlen, hres⟩ := hfin
  refine ⟨hlen, ?_⟩
  intro j hj
  rw [hres j hj]
  by_cases hc : w - 1 ≤ j
  · rw [if_pos ⟨hc, hj⟩, if_pos hc]
  · rw [if_neg (by tauto), if_neg hc]

/-- The incremental sliding-sum path of simple_moving_average_np computes
exactly the directly recomputed averages of simple_moving_average. -/
lemma simple_moving_average_np_eq (data : List ℚ) (w : ℕ) :
    simple_moving_average_np data w = simple_moving_average data w := by
  rcases eq_or_ne w 0 with h0 | h0
  · subst h0
    simp [simple_moving_average, simple_moving_average_np]
  rcases lt_or_ge data.length w with hlt | hge
  · simp [simple_moving_average, simple_moving_average_np, h0, hlt]
  · simp only [simple_moving_average, simple_moving_average_np, if_neg h0,
      if_neg (show ¬ data.length < w by omega)]
    congr 1
    set P : ℕ → ℚ × List ℚ → Prop := fun i s =>
      s.1 = ((data.drop (i - w)).take w).sum ∧
      s.2 = (List.range (i - w + 1)).map
        (fun j => ((data.drop j).take w).sum / (w : ℚ)) with hPdef
    have hinit : P w ((data.take w).sum, [(data.take w).sum / (w : ℚ)]) := by
      rw [hPdef]
      refine ⟨by simp [Nat.sub_self], ?_⟩
      simp [Nat.sub_self, List.range_succ]
    have hstep : ∀ i s, w ≤ i → i < w + (data.length - w) →
        P i s → P (i + 1) (smaNpStep data w s i) := by
      intro i s hwi hiN hs
      rw [hPdef] at hs ⊢
      obtain ⟨h1, h2⟩ := hs
      have ha : i - w < data.length := by omega
      have haw : i - w + w = i := by omega
      have e1 : i + 1 - w = (i - w) + 1 := by omega
      have hS1 : ((data.drop (i + 1 - w)).take w).sum
          = ((data.drop (i - w)).take w).sum + (data.getD i 0 - data.getD (i - w) 0) := by
        rw [e1, sum_drop_succ_take data (i - w) w ha,
          sum_take_drop_succ data (i - w) w (by omega), haw]
        ring
      simp only [smaNpStep]
      refine ⟨?_, ?_⟩
      · rw [h1, hS1]
      · rw [h1, ← hS1, h2, e1]
        conv_rhs => rw [List.range_succ, List.map_append]
        simp
    have hfin := foldl_range'_inv P (smaNpStep data w) (data.length - w) w _ hstep hinit
    rw [hPdef] at hfin
    obtain ⟨-, h2⟩ := hfin
    rw [h2]
    congr 2
    omega

/-- The ema accumulation loop of the list version produces the spec
recurrence exactly, the per-step rearrangement being resolved by ring
algebra. -/
lemma ema_foldl_eq (a : ℚ) (rest : List ℚ) : ∀ (prev : ℚ) (acc : List ℚ),
    (rest.foldl (emaStep a) (prev, acc)).2 = acc ++ emaSpecFrom a prev rest := by
  induction rest with
  | nil => intro prev acc; simp [emaSpecFrom]
  | cons x xs ih =>
    intro prev acc
    rw [List.foldl_cons]
    simp only [emaStep]
    rw [ih]
    have hv : (x - prev) * a + prev = a * x + (1 - a) * prev := by ring
    rw [hv]
    simp [emaSpecFrom]

/-- The ema accumulation loop of the SIMD version produces the spec
recurrence exactly as well. -/
lemma ema_simd_foldl_eq (a : ℚ) (rest : List ℚ) : ∀ (prev : ℚ) (acc : List ℚ),
    (rest.foldl (emaStepSimd a) (prev, acc)).2 = acc ++ emaSpecFrom a prev rest := by
  induction rest with
  | nil => intro prev acc; simp [emaSpecFrom]
  | cons x xs ih =>
    intro prev acc
    rw [List.foldl_cons]
    simp only [emaStepSimd]
    rw [ih]
    have hv : x * a + prev * (1 - a) = a * x + (1 - a) * prev := by ring
    rw [hv]
    simp [emaSpecFrom]

/-- Each smoothing iteration of the scalar RSI loop emits exactly one
value. -/
lemma rsiStep_snd (w : ℕ) (s : ℚ × ℚ × List ℚ) (c : ℚ) :
    ∃ r, (rsiStep w s c).2.2 = s.2.2 ++ [r] := by
  simp only [rsiStep]
  split_ifs <;> exact ⟨_, rfl⟩

/-- Each smoothing iteration of the np and SIMD RSI loop emits exactly one
value. -/
lemma rsiStepNp_snd (w : ℕ) (s : ℚ × ℚ × List ℚ) (c : ℚ) :
    ∃ r, (rsiStepNp w s c).2.2 = s.2.2 ++ [r] := by
  simp only [rsiStepNp]
  split_ifs <;> exact ⟨_, rfl⟩

/-- A loop that appends one value per iteration grows the emitted list by
the number of iterations. -/
lemma foldl_snd_length {f : ℚ × ℚ × List ℚ → ℚ → ℚ × ℚ × List ℚ}
    (hf : ∀ s c, ∃ r, (f s c).2.2 = s.2.2 ++ [r]) :
    ∀ (cs : List ℚ) (s : ℚ × ℚ × List ℚ),
      ((cs.foldl f s).2.2).length = s.2.2.length + cs.length := by
  intro cs
  induction cs with
  | nil => intro s; simp
  | cons c cs ih =>
    intro s
    rw [List.foldl_cons, ih (f s c)]
    obtain ⟨r, hr⟩ := hf s c
    rw [hr]
    simp only [List.length_append, List.length_cons, List.length_nil]
    omega

/-- With a zero loss accumulator and only positive changes, the scalar RSI
smoothing loop keeps the loss at zero and emits only the value 100. -/
lemma rsiStep_all100 (w : ℕ) :
    ∀ (cs : List ℚ), (∀ c ∈ cs, 0 < c) → ∀ (g : ℚ) (outs : List ℚ),
      (∀ x ∈ outs, x = 100) →
      ∀ x ∈ (cs.foldl (rsiStep w) (g, 0, outs)).2.2, x = 100 := by
  intro cs
  induction cs with
  | nil => intro _ g outs houts; simpa using houts
  | cons c cs ih =>
    intro hpos g outs houts
    rw [List.foldl_cons]
    have hc : 0 < c := hpos c (by simp)
    have hred : ∃ G, rsiStep w (g, 0, outs) c = (G, 0, outs ++ [100]) := by
      simp only [rsiStep, if_neg (not_lt.2 hc.le)]
      norm_num
    obtain ⟨G, hG⟩ := hred
    rw [hG]
    refine ih (fun d hd => hpos d (by simp [hd])) G (outs ++ [100]) ?_
    intro x hx
    rcases List.mem_append.mp hx with h | h
    · exact houts x h
    · simpa using h

/-- With a zero loss accumulator and only positive changes, the np and SIMD
RSI smoothing loop also emits only the value 100. -/
lemma rsiStepNp_all100 (w : ℕ) :
    ∀ (cs : List ℚ), (∀ c ∈ cs, 0 < c) → ∀ (g : ℚ) (outs : List ℚ),
      (∀ x ∈ outs, x = 100) →
      ∀ x ∈ (cs.foldl (rsiStepNp w) (g, 0, outs)).2.2, x = 100 := by
  intro cs
  induction cs with
  | nil => intro _ g outs houts; simpa using houts
  | cons c cs ih =>
    intro hpos g outs houts
    rw [List.foldl_cons]
    have hc : 0 < c := hpos c (by simp)
    have hred : ∃ G, rsiStepNp w (g, 0, outs) c = (G, 0, outs ++ [100]) := by
      simp only [rsiStepNp, if_neg (not_lt.2 hc.le)]
      norm_num
    obtain ⟨G, hG⟩ := hred
    rw [hG]
    refine ih (fun d hd => hpos d (by simp [hd])) G (outs ++ [100]) ?_
    intro x hx
    rcases List.mem_append.mp hx with h | h
    · exact houts x h
    · simpa using h

/-- The changes of a strictly increasing sequence are all positive. -/
lemma changes_pos : ∀ (prices : List ℚ), List.Chain' (fun a b : ℚ => a < b) prices →
    ∀ c ∈ List.zipWith (fun a b => a - b) prices.tail prices, 0 < c
  | [], _, c, hc => by simp at hc
  | [_], _, c, hc => by simp at hc
  | a :: b :: t, h, c, hc => by
    rw [List.chain'_cons] at h
    simp only [List.tail_cons, List.zipWith_cons_cons] at hc
    rcases List.mem_cons.mp hc with rfl | hmem
    · linarith [h.1]
    · exact changes_pos (b :: t) h.2 c (by simpa using hmem)

/-- Unchecked success of the positivity-checked log-return loop when every
inspected price is positive. -/
lemma logReturnsLoop_ok (log : ℚ → ℚ) (prices : List ℚ) :
    ∀ (idxs : List ℕ) (acc : List ℚ), (∀ i ∈ idxs, 0 < prices.getD i 0) →
      logReturnsLoop log prices acc idxs
        = .ok (acc ++ idxs.map (fun i => log (prices.getD (i + 1) 0 / prices.getD i 0))) := by
  intro idxs
  induction idxs with
  | nil => intro acc _; simp [logReturnsLoop]
  | cons i is ih =>
    intro acc hpos
    simp only [logReturnsLoop, if_neg (not_le.2 (hpos i (by simp)))]
    rw [ih _ (fun j hj => hpos j (by simp [hj]))]
    simp

/-- Failure of the positivity-checked log-return loop as soon as one
inspected price is non-positive. -/
lemma logReturnsLoop_err (log : ℚ → ℚ) (prices : List ℚ) :
    ∀ (idxs : List ℕ) (acc : List ℚ), (∃ i ∈ idxs, prices.getD i 0 ≤ 0) →
      logReturnsLoop log prices acc idxs = .error .priceMustBePositive := by
  intro idxs
  induction idxs with
  | nil => intro acc h; simp at h
  | cons i is ih =>
    intro acc h
    by_cases hi : prices.getD i 0 ≤ 0
    · simp only [logReturnsLoop, if_pos hi]
    · simp only [logReturnsLoop, if_neg hi]
      apply ih
      obtain ⟨j, hj, hjle⟩ := h
      rcases List.mem_cons.mp hj with rfl | hj'
      · exact absurd hjle hi
      · exact ⟨j, hj', hjle⟩

/-- The number of log returns is one less than the number of prices. -/
lemma compute_log_returns_length (log : ℚ → ℚ) (prices : List ℚ) :
    (compute_log_returns log prices).length = prices.length - 1 := by
  rw [compute_log_returns, List.length_zipWith, List.length_tail]
  omega

/-- A window larger than a non-empty input is shrunk by rolling_std_dev_fast
to the input length. -/
lemma rolling_std_dev_fast_shrink (l : List ℚ) (w : ℕ) (h0 : 1 ≤ l.length)
    (hw : l.length ≤ w) :
    rolling_std_dev_fast w l = rolling_std_dev_fast l.length l := by
  have hw0 : ¬ w = 0 := by omega
  have hl0 : ¬ l.length = 0 := by omega
  simp only [rolling_std_dev_fast, if_neg hw0, if_neg hl0]
  have e1 : (if l.length < w then l.length else w) = l.length := by
    split_ifs with h
    · rfl
    · omega
  have e2 : (if l.length < l.length then l.length else l.length) = l.length := by
    simp
  rw [e1, e2]

example : simple_moving_average [1, 2, 3, 4, 5, 6, 7] 3 = .ok [2, 3, 4, 5, 6] := by
  norm_num [simple_moving_average, List.range_succ]

example : simple_moving_average_np [1, 2, 3, 4, 5, 6, 7] 3 = .ok [2, 3, 4, 5, 6] := by
  norm_num [simple_moving_average_np, smaNpStep, List.range']

example : compute_ema_with_smoothing [10, 11, 12, 11, 10, 11, 12, 13] (1/2) =
    .ok [10, 21/2, 45/4, 89/8, 169/16, 345/32, 729/64, 1561/128] := by
  norm_num [compute_ema_with_smoothing, emaStep]

example : ema_spec (1/2) [10, 11, 12, 11, 10, 11, 12, 13] =
    [10, 21/2, 45/4, 89/8, 169/16, 345/32, 729/64, 1561/128] := by
  norm_num [ema_spec, emaSpecFrom]

/-- Success form of rolling_volatility when the window fits the number of
log returns: one windowed radicand per window position. -/
lemma rolling_volatility_ok (log : ℚ → ℚ) (S : List ℚ) (w : ℕ) (hw : 1 ≤ w)
    (h2 : 2 ≤ S.length) (hwin : w < S.length) :
    rolling_volatility log S w
      = .ok ((List.range ((compute_log_returns log S).length - w + 1)).map
          (fun i => compute_std_sq (((compute_log_returns log S).drop i).take w))) := by
  have h0 : ¬ w = 0 := by omega
  have hlr := compute_log_returns_length log S
  have hne : ¬ (compute_log_returns log S = [] ∨ (compute_log_returns log S).length < w) := by
    push_neg
    refine ⟨?_, by omega⟩
    intro hnil
    rw [hnil] at hlr
    simp at hlr
    omega
  simp only [rolling_volatility]
  rw [if_neg h0, if_neg hne]

/-- Success form of rolling_volatility_np when the size checks pass and
every price inspected by the positivity check is positive. -/
lemma rolling_volatility_np_ok (log : ℚ → ℚ) (S : List ℚ) (w : ℕ) (hw : 1 ≤ w)
    (h2 : 2 ≤ S.length) (hwin : w < S.length)
    (hpos : ∀ i, i < S.length - 1 → 0 < S.getD i 0) :
    ∃ res, rolling_volatility_np log S w = .ok res ∧ res.length = S.length - 1 - w + 1 := by
  have h0 : ¬ w = 0 := by omega
  set lrs := (List.range (S.length - 1)).map
    (fun i => log (S.getD (i + 1) 0 / S.getD i 0)) with hlrs
  have hok : log_returns_checked log S = .ok lrs := by
    rw [log_returns_checked, logReturnsLoop_ok]
    · simp [hlrs]
    · intro i hi
      exact hpos i (List.mem_range.mp hi)
  have hlen : lrs.length = S.length - 1 := by
    rw [hlrs]
    simp
  refine ⟨(List.range (lrs.length - w + 1)).map
    (fun i => compute_std_sq ((lrs.drop i).take w)), ?_, by rw [List.length_map, List.length_range, hlen]⟩
  rw [rolling_volatility_np, if_neg h0, if_neg (by omega), if_neg (by omega), hok]
  show (if lrs.length < w then Except.error CppError.windowLargerThanLogReturns
    else .ok ((List.range (lrs.length - w + 1)).map
      (fun i => compute_std_sq ((lrs.drop i).take w)))) = _
  rw [if_neg (by omega)]

/-! ## Claim theorems -/

/-- C1: for every price sequence and every window_size with
1 <= window_size <= length, the incremental engine rolling_std_dev_fast
produces at each window position exactly the same standard deviation as
direct recomputation of the two-pass vector_variance / vector_stddev over
the explicit sub-window, over exact rational arithmetic. -/
theorem claim1_incremental_stddev_matches_two_pass (S : List ℚ) (w : ℕ)
    (h1 : 1 ≤ w) (h2 : w ≤ S.length) :
    ∃ res, rolling_std_dev_fast w S = .ok res ∧
      ∀ i, w - 1 ≤ i → i < S.length →
        Real.sqrt ((res.getD i 0 : ℚ))
          = Real.sqrt ((vector_variance ((S.drop (i + 1 - w)).take w) : ℚ)) := by
  obtain ⟨res, hres, hlen, hget⟩ := rolling_std_dev_fast_spec S w h1 h2
  refine ⟨res, hres, ?_⟩
  intro i hwi hiN
  rw [hget i hiN, if_pos hwi]

/-- Witness for C1 at window 2 over the sequence 1, 2, 4. -/
theorem claim1_witness :
    1 ≤ 2 ∧ 2 ≤ ([1, 2, 4] : List ℚ).length ∧
    (∃ res, rolling_std_dev_fast 2 [1, 2, 4] = .ok res ∧
      ∀ i, 2 - 1 ≤ i → i < ([1, 2, 4] : List ℚ).length →
        Real.sqrt ((res.getD i 0 : ℚ))
          = Real.sqrt ((vector_variance ((([1, 2, 4] : List ℚ).drop (i + 1 - 2)).take 2) : ℚ))) :=
  ⟨by norm_num, by norm_num,
    claim1_incremental_stddev_matches_two_pass [1, 2, 4] 2 (by norm_num) (by norm_num)⟩

/-- C5 counterexample: on the empty sequence with window_size 1 the source
does not return normally; the write result[window - 1] with the shrunk
window 0 is an out-of-bounds vector access. -/
theorem claim5_counterexample :
    rolling_std_dev_fast 1 ([] : List ℚ) = .error .outOfBoundsAccess := by
  norm_num [rolling_std_dev_fast]

/-- C5 (amended): for every non-empty price sequence and every window_size
strictly greater than the sequence length, rolling_std_dev_fast shrinks the
effective window to the sequence length and returns normally. -/
theorem claim5_window_shrink_amended (S : List ℚ) (w : ℕ)
    (h0 : 1 ≤ S.length) (hw : S.length < w) :
    rolling_std_dev_fast w S = rolling_std_dev_fast S.length S ∧
    ∃ res, rolling_std_dev_fast w S = .ok res := by
  have h1 := rolling_std_dev_fast_shrink S w h0 (by omega)
  refine ⟨h1, ?_⟩
  obtain ⟨res, hres, -, -⟩ := rolling_std_dev_fast_spec S S.length h0 le_rfl
  exact ⟨res, h1.trans hres⟩

/-- Witness for C5 at window 5 over the sequence 5, 10, 15. -/
theorem claim5_witness :
    1 ≤ ([5, 10, 15] : List ℚ).length ∧ ([5, 10, 15] : List ℚ).length < 5 ∧
    (rolling_std_dev_fast 5 [5, 10, 15] = rolling_std_dev_fast ([5, 10, 15] : List ℚ).length [5, 10, 15] ∧
      ∃ res, rolling_std_dev_fast 5 [5, 10, 15] = .ok res) :=
  ⟨by norm_num, by norm_num,
    claim5_window_shrink_amended [5, 10, 15] 5 (by norm_num) (by norm_num)⟩

/-- C6 counterexample: with the empty input and window_size 0 both RSI
variants take the insufficient-data branch first and silently return an
empty result instead of failing on the invalid window. -/
theorem claim6_counterexample :
    compute_smoothed_rsi ([] : List ℚ) 0 = .ok [] ∧
    compute_smoothed_rsi_simd ([] : List ℚ) 0 = .ok [] := by
  constructor
  · norm_num [compute_smoothed_rsi]
  · norm_num [compute_smoothed_rsi_simd]

/-- C6 (amended): for every non-empty input sequence, window_size < 1 makes
both RSI variants fail with the invalid-argument condition. -/
theorem claim6_rsi_window_validation_amended (prices : List ℚ) (w : ℕ)
    (hne : prices ≠ []) (hw : w < 1) :
    compute_smoothed_rsi prices w = .error .windowSizeAtLeastOne ∧
    compute_smoothed_rsi_simd prices w = .error .windowSizeAtLeastOne := by
  have hw0 : w = 0 := by omega
  subst hw0
  have hlen : ¬ prices.length ≤ 0 := by
    have := List.length_pos.mpr hne
    omega
  constructor
  · rw [compute_smoothed_rsi, if_neg hlen, if_pos (by omega)]
  · rw [compute_smoothed_rsi_simd, if_neg hlen, if_pos (by omega)]

/-- Witness for C6 at the one-element sequence 1 with window_size 0. -/
theorem claim6_witness :
    ([1] : List ℚ) ≠ [] ∧ 0 < 1 ∧
    (compute_smoothed_rsi [1] 0 = .error .windowSizeAtLeastOne ∧
      compute_smoothed_rsi_simd [1] 0 = .error .windowSizeAtLeastOne) :=
  ⟨by norm_num, by norm_num,
    claim6_rsi_window_validation_amended [1] 0 (by norm_num) (by norm_num)⟩

/-- C7: simple_moving_average and simple_moving_average_np return the empty
sequence without error when the data is shorter than the window, and
otherwise return length - window_size + 1 values whose i-th entry is the
sum of data[i, i + window_size) divided by window_size. -/
theorem claim7_sma_behavior (data : List ℚ) (w : ℕ) (hw : 1 ≤ w) :
    (data.length < w → simple_moving_average data w = .ok [] ∧
      simple_moving_average_np data w = .ok []) ∧
    (w ≤ data.length → ∃ res, simple_moving_average data w = .ok res ∧
      simple_moving_average_np data w = .ok res ∧
      res.length = data.length - w + 1 ∧
      ∀ i, i < res.length → res.getD i 0 = ((data.drop i).take w).sum / (w : ℚ)) := by
  have h0 : ¬ w = 0 := by omega
  constructor
  · intro hlt
    constructor
    · rw [simple_moving_average, if_neg h0, if_pos hlt]
    · rw [simple_moving_average_np, if_neg h0, if_pos hlt]
  · intro hge
    refine ⟨(List.range (data.length - w + 1)).map
        (fun i => ((data.drop i).take w).sum / (w : ℚ)), ?_, ?_, ?_, ?_⟩
    · rw [simple_moving_average, if_neg h0, if_neg (by omega)]
    · rw [simple_moving_average_np_eq, simple_moving_average, if_neg h0, if_neg (by omega)]
    · simp
    · intro i hi
      have hi' : i < data.length - w + 1 := by simpa using hi
      rw [List.getD_eq_getElem _ _ (by simpa using hi), List.getElem_map, List.getElem_range]

/-- Witness for C7 at window 3 over the sequence 1 .. 7. -/
theorem claim7_witness :
    1 ≤ 3 ∧
    ((([1, 2, 3, 4, 5, 6, 7] : List ℚ).length < 3 →
        simple_moving_average [1, 2, 3, 4, 5, 6, 7] 3 = .ok [] ∧
        simple_moving_average_np [1, 2, 3, 4, 5, 6, 7] 3 = .ok []) ∧
      (3 ≤ ([1, 2, 3, 4, 5, 6, 7] : List ℚ).length →
        ∃ res, simple_moving_average [1, 2, 3, 4, 5, 6, 7] 3 = .ok res ∧
          simple_moving_average_np [1, 2, 3, 4, 5, 6, 7] 3 = .ok res ∧
          res.length = ([1, 2, 3, 4, 5, 6, 7] : List ℚ).length - 3 + 1 ∧
          ∀ i, i < res.length →
            res.getD i 0 = ((([1, 2, 3, 4, 5, 6, 7] : List ℚ).drop i).take 3).sum / (3 : ℚ))) :=
  ⟨by norm_num, claim7_sma_behavior [1, 2, 3, 4, 5, 6, 7] 3 (by norm_num)⟩

/-- C8: both EMA-with-smoothing implementations realize exactly the spec
recurrence ema[0] = input[0], ema[i] = alpha * input[i] + (1 - alpha) *
ema[i-1] for alpha in (0,1) (empty input giving empty output), and fail
with the invalid-argument condition for alpha outside (0,1). -/
theorem claim8_ema_recurrence (prices : List ℚ) (a : ℚ) :
    (0 < a ∧ a < 1 →
      compute_ema_with_smoothing prices a = .ok (ema_spec a prices) ∧
      compute_ema_with_smoothing_simd prices a = .ok (ema_spec a prices)) ∧
    (a ≤ 0 ∨ 1 ≤ a →
      compute_ema_with_smoothing prices a = .error .emaSmoothingFactorOutOfRange ∧
      compute_ema_with_smoothing_simd prices a = .error .emaSmoothingFactorOutOfRange) := by
  constructor
  · rintro ⟨h0, h1⟩
    have hn : ¬ (a ≤ 0 ∨ 1 ≤ a) := by push_neg; exact ⟨h0, h1⟩
    cases prices with
    | nil =>
      constructor
      · rw [compute_ema_with_smoothing, if_neg hn]
        simp [ema_spec]
      · rw [compute_ema_with_smoothing_simd, if_neg hn]
        simp [ema_spec]
    | cons p rest =>
      constructor
      · rw [compute_ema_with_smoothing, if_neg hn]
        show Except.ok ((rest.foldl (emaStep a) (p, [p])).2) = _
        rw [ema_foldl_eq]
        rw [ema_spec]
        simp
      · rw [compute_ema_with_smoothing_simd, if_neg hn]
        show Except.ok ((rest.foldl (emaStepSimd a) (p, [p])).2) = _
        rw [ema_simd_foldl_eq]
        rw [ema_spec]
        simp
  · intro h
    constructor
    · rw [compute_ema_with_smoothing.eq_def, if_pos h]
    · rw [compute_ema_with_smoothing_simd.eq_def, if_pos h]

/-- Witness for C8: with smoothing factor one half over the sequence of the
spec example the list version produces exactly the stated values. -/
theorem claim8_witness :
    (0 < (1/2 : ℚ) ∧ (1/2 : ℚ) < 1) ∧
    compute_ema_with_smoothing [10, 11, 12, 11, 10, 11, 12, 13] (1/2)
      = .ok [10, 21/2, 45/4, 89/8, 169/16, 345/32, 729/64, 1561/128] := by
  have h := (claim8_ema_recurrence [10, 11, 12, 11, 10, 11, 12, 13] (1/2)).1
    (by norm_num)
  refine ⟨by norm_num, ?_⟩
  rw [h.1]
  norm_num [ema_spec, emaSpecFrom]

/-- C9: over a strictly monotonically increasing price sequence every RSI
value emitted by compute_smoothed_rsi and by compute_smoothed_rsi_simd is
exactly 100. -/
theorem claim9_rsi_monotone_100 (prices : List ℚ) (w : ℕ) (hw : 1 ≤ w)
    (hlen : w < prices.length)
    (hmono : List.Chain' (fun a b : ℚ => a < b) prices) :
    (∃ l, compute_smoothed_rsi prices w = .ok l ∧ ∀ x ∈ l, x = 100) ∧
    (∃ l, compute_smoothed_rsi_simd prices w = .ok l ∧ ∀ x ∈ l, x = 100) := by
  have hnle : ¬ prices.length ≤ w := by omega
  have hnlt : ¬ w < 1 := by omega
  have hcs := changes_pos prices hmono
  constructor
  · have hL : (((List.zipWith (fun a b => a - b) prices.tail prices).take w).map
        (fun c => if c < 0 then -c else 0)).sum / (w : ℚ) = 0 := by
      rw [List.sum_eq_zero, zero_div]
      intro x hx
      obtain ⟨c, hc, rfl⟩ := List.mem_map.mp hx
      rw [if_neg (not_lt.2 (hcs c (List.take_subset _ _ hc)).le)]
    have key : ∃ g, compute_smoothed_rsi prices w
        = .ok (((List.zipWith (fun a b => a - b) prices.tail prices).drop (w - 1)).foldl
            (rsiStep w) (g, 0, [100])).2.2 := by
      simp only [compute_smoothed_rsi]
      rw [if_neg hnle, if_neg hnlt, hL, if_neg (show ¬ (0 : ℚ) ≠ 0 by simp)]
      exact ⟨_, rfl⟩
    obtain ⟨g, hg⟩ := key
    exact ⟨_, hg, rsiStep_all100 w _ (fun c hc => hcs c (List.drop_subset _ _ hc)) g [100]
      (by intro x hx; simpa using hx)⟩
  · have hL : vector_conditional_sum
        ((List.zipWith (fun a b => a - b) prices.tail prices).take w) false / (w : ℚ) = 0 := by
      rw [vector_conditional_sum, if_neg (by simp), List.sum_eq_zero, zero_div]
      intro x hx
      obtain ⟨c, hc, rfl⟩ := List.mem_map.mp hx
      have h1 : 0 < c := hcs c (List.take_subset _ _ hc)
      simp [max_eq_left, neg_nonpos.2 h1.le]
    have key : ∃ g, compute_smoothed_rsi_simd prices w
        = .ok (((List.zipWith (fun a b => a - b) prices.tail prices).drop w).foldl
            (rsiStepNp w) (g, 0, [100])).2.2 := by
      simp only [compute_smoothed_rsi_simd]
      rw [if_neg hnle, if_neg hnlt, hL, if_pos rfl]
      exact ⟨_, rfl⟩
    obtain ⟨g, hg⟩ := key
    exact ⟨_, hg, rsiStepNp_all100 w _ (fun c hc => hcs c (List.drop_subset _ _ hc)) g [100]
      (by intro x hx; simpa using hx)⟩

/-- Witness for C9 over the strictly increasing sequence 1, 2, 3 with
window 1. -/
theorem claim9_witness :
    1 ≤ 1 ∧ 1 < ([1, 2, 3] : List ℚ).length ∧
    List.Chain' (fun a b : ℚ => a < b) [1, 2, 3] ∧
    ((∃ l, compute_smoothed_rsi [1, 2, 3] 1 = .ok l ∧ ∀ x ∈ l, x = 100) ∧
      (∃ l, compute_smoothed_rsi_simd [1, 2, 3] 1 = .ok l ∧ ∀ x ∈ l, x = 100)) :=
  ⟨by norm_num, by norm_num, by norm_num,
    claim9_rsi_monotone_100 [1, 2, 3] 1 (by norm_num) (by norm_num) (by norm_num)⟩

/-- C10 counterexample: on the empty price list, compute_ema with window 1
returns an empty result through the empty-input short circuit instead of
failing with the smoothing-factor condition. -/
theorem claim10_counterexample : compute_ema ([] : List ℚ) 1 = .ok [] := by
  norm_num [compute_ema]

/-- C10 (amended): on every non-empty price sequence compute_ema with
window 1 fails with the smoothing-factor condition because 2/(1+1) = 1 is
rejected by the exclusive range check; compute_ema_simd fails for every
sequence, empty included; and every window of at least 2 on non-empty input
succeeds. -/
theorem claim10_ema_window_one_amended (prices : List ℚ) (w : ℕ) :
    (prices ≠ [] → compute_ema prices 1 = .error .emaSmoothingFactorOutOfRange) ∧
    compute_ema_simd prices 1 = .error .emaSmoothingFactorOutOfRange ∧
    (2 ≤ w → prices ≠ [] →
      (∃ l, compute_ema prices w = .ok l) ∧ (∃ l, compute_ema_simd prices w = .ok l)) := by
  have hone : (2 : ℚ) / (((1 : ℕ) : ℚ) + 1) = 1 := by norm_num
  refine ⟨?_, ?_, ?_⟩
  · intro hne
    rw [compute_ema, if_neg (by omega), if_neg hne, hone,
      compute_ema_with_smoothing.eq_def, if_pos (by norm_num)]
  · rw [compute_ema_simd, if_neg (by omega), hone,
      compute_ema_with_smoothing_simd.eq_def, if_pos (by norm_num)]
  · intro hw hne
    have ha0 : 0 < (2 : ℚ) / (((w : ℕ) : ℚ) + 1) := by positivity
    have ha1 : (2 : ℚ) / (((w : ℕ) : ℚ) + 1) < 1 := by
      rw [div_lt_one (by positivity)]
      have : (2 : ℚ) ≤ (w : ℚ) := by exact_mod_cast hw
      linarith
    have hn : ¬ ((2 : ℚ) / (((w : ℕ) : ℚ) + 1) ≤ 0 ∨ 1 ≤ (2 : ℚ) / (((w : ℕ) : ℚ) + 1)) := by
      push_neg
      exact ⟨ha0, ha1⟩
    obtain ⟨p, rest, rfl⟩ := List.exists_cons_of_ne_nil hne
    constructor
    · rw [compute_ema, if_neg (by omega), if_neg (by simp), compute_ema_with_smoothing,
        if_neg hn]
      exact ⟨_, rfl⟩
    · rw [compute_ema_simd, if_neg (by omega), compute_ema_with_smoothing_simd, if_neg hn]
      exact ⟨_, rfl⟩

/-- Witness for C10 at the one-element sequence 1 and window 2. -/
theorem claim10_witness :
    ([1] : List ℚ) ≠ [] ∧ 2 ≤ 2 ∧
    ((([1] : List ℚ) ≠ [] → compute_ema [1] 1 = .error .emaSmoothingFactorOutOfRange) ∧
      compute_ema_simd [1] 1 = .error .emaSmoothingFactorOutOfRange ∧
      (2 ≤ 2 → ([1] : List ℚ) ≠ [] →
        (∃ l, compute_ema [1] 2 = .ok l) ∧ (∃ l, compute_ema_simd [1] 2 = .ok l))) :=
  ⟨by norm_num, by norm_num, claim10_ema_window_one_amended [1] 2⟩

/-- C2 counterexample: rolling_std_dev_fast returns a result of the full
input length (zero-padded prefix), not length N - window_size + 1, and the
scalar compute_smoothed_rsi returns N - window_size + 1 values, not
N - window_size, both exhibited on the sequence 1, 2, 3 with window 2. -/
theorem claim2_counterexample :
    rolling_std_dev_fast 2 [1, 2, 3] = .ok [0, 1/4, 1/4] ∧
    ([0, 1/4, 1/4] : List ℚ).length ≠ 3 - 2 + 1 ∧
    compute_smoothed_rsi [1, 2, 3] 2 = .ok [100, 100] ∧
    ([100, 100] : List ℚ).length ≠ 3 - 2 := by
  refine ⟨?_, by norm_num, ?_, by norm_num⟩
  · norm_num [rolling_std_dev_fast, welfordStep, slideStep, List.range', List.set]
  · norm_num [compute_smoothed_rsi, rsiStep]

/-- C2 (amended): result lengths of the windowed operations. With
window_size >= 1: rolling_std_dev_fast returns a vector of the full input
length N (its first window-1 entries are left as padding); the moving
average returns max(0, N - w + 1); the scalar smoothed RSI returns
N - w + 1 values when N > w (its smoothing loop restarts at change index
w - 1) and 0 otherwise; the SIMD RSI variant returns N - w when N > w; and
rolling_volatility, whose return transform precedes the windowing, returns
N - w values. -/
theorem claim2_result_lengths_amended (S : List ℚ) (w : ℕ) (hw : 1 ≤ w) (log : ℚ → ℚ) :
    (1 ≤ S.length → ∃ res, rolling_std_dev_fast w S = .ok res ∧ res.length = S.length) ∧
    (∃ res, simple_moving_average S w = .ok res ∧
      res.length = if S.length < w then 0 else S.length - w + 1) ∧
    (∃ res, compute_smoothed_rsi S w = .ok res ∧
      res.length = if S.length ≤ w then 0 else S.length - w + 1) ∧
    (∃ res, compute_smoothed_rsi_simd S w = .ok res ∧
      res.length = if S.length ≤ w then 0 else S.length - w) ∧
    (2 ≤ S.length → w < S.length →
      ∃ res, rolling_volatility log S w = .ok res ∧ res.length = S.length - w) := by
  have h0 : ¬ w = 0 := by omega
  have hch : (List.zipWith (fun a b : ℚ => a - b) S.tail S).length = S.length - 1 := by
    rw [List.length_zipWith, List.length_tail]
    omega
  refine ⟨?_, ?_, ?_, ?_, ?_⟩
  · intro hlen
    rcases le_or_lt w S.length with hle | hlt
    · obtain ⟨res, hres, hL, -⟩ := rolling_std_dev_fast_spec S w hw hle
      exact ⟨res, hres, hL⟩
    · obtain ⟨res, hres, hL, -⟩ := rolling_std_dev_fast_spec S S.length hlen le_rfl
      exact ⟨res, (rolling_std_dev_fast_shrink S w hlen (by omega)).trans hres, hL⟩
  · rcases lt_or_ge S.length w with hlt | hge
    · refine ⟨[], ?_, by rw [if_pos hlt]; rfl⟩
      rw [simple_moving_average, if_neg h0, if_pos hlt]
    · have hk : simple_moving_average S w = .ok ((List.range (S.length - w + 1)).map
          (fun i => ((S.drop i).take w).sum / (w : ℚ))) := by
        rw [simple_moving_average, if_neg h0, if_neg (by omega)]
      refine ⟨_, hk, ?_⟩
      rw [if_neg (by omega)]
      simp
  · rcases le_or_lt S.length w with hle | hlt
    · refine ⟨[], ?_, by rw [if_pos hle]; rfl⟩
      rw [compute_smoothed_rsi, if_pos hle]
    · have hk : ∃ res, compute_smoothed_rsi S w = .ok res := by
        rw [compute_smoothed_rsi, if_neg (by omega), if_neg (by omega)]
        exact ⟨_, rfl⟩
      obtain ⟨res, hres⟩ := hk
      refine ⟨res, hres, ?_⟩
      rw [compute_smoothed_rsi, if_neg (by omega), if_neg (by omega)] at hres
      injection hres with h
      rw [← h, foldl_snd_length (rsiStep_snd w), if_neg (show ¬ S.length ≤ w by omega)]
      simp only [List.length_cons, List.length_nil, List.length_drop, hch]
      omega
  · rcases le_or_lt S.length w with hle | hlt
    · refine ⟨[], ?_, by rw [if_pos hle]; rfl⟩
      rw [compute_smoothed_rsi_simd, if_pos hle]
    · have hk : ∃ res, compute_smoothed_rsi_simd S w = .ok res := by
        rw [compute_smoothed_rsi_simd, if_neg (by omega), if_neg (by omega)]
        exact ⟨_, rfl⟩
      obtain ⟨res, hres⟩ := hk
      refine ⟨res, hres, ?_⟩
      rw [compute_smoothed_rsi_simd, if_neg (by omega), if_neg (by omega)] at hres
      injection hres with h
      rw [← h, foldl_snd_length (rsiStepNp_snd w), if_neg (show ¬ S.length ≤ w by omega)]
      simp only [List.length_cons, List.length_nil, List.length_drop, hch]
      omega
  · intro h2 hwin
    refine ⟨_, rolling_volatility_ok log S w hw h2 hwin, ?_⟩
    rw [List.length_map, List.length_range, compute_log_returns_length]
    omega

/-- Witness for C2 at window 2 over the sequence 1, 2, 3, 4, with the
identically-zero stand-in for the logarithm. -/
theorem claim2_witness :
    1 ≤ 2 ∧
    ((1 ≤ ([1, 2, 3, 4] : List ℚ).length →
        ∃ res, rolling_std_dev_fast 2 [1, 2, 3, 4] = .ok res ∧
          res.length = ([1, 2, 3, 4] : List ℚ).length) ∧
      (∃ res, simple_moving_average [1, 2, 3, 4] 2 = .ok res ∧
        res.length = if ([1, 2, 3, 4] : List ℚ).length < 2 then 0
          else ([1, 2, 3, 4] : List ℚ).length - 2 + 1) ∧
      (∃ res, compute_smoothed_rsi [1, 2, 3, 4] 2 = .ok res ∧
        res.length = if ([1, 2, 3, 4] : List ℚ).length ≤ 2 then 0
          else ([1, 2, 3, 4] : List ℚ).length - 2 + 1) ∧
      (∃ res, compute_smoothed_rsi_simd [1, 2, 3, 4] 2 = .ok res ∧
        res.length = if ([1, 2, 3, 4] : List ℚ).length ≤ 2 then 0
          else ([1, 2, 3, 4] : List ℚ).length - 2) ∧
      (2 ≤ ([1, 2, 3, 4] : List ℚ).length → 2 < ([1, 2, 3, 4] : List ℚ).length →
        ∃ res, rolling_volatility (fun _ => 0) [1, 2, 3, 4] 2 = .ok res ∧
          res.length = ([1, 2, 3, 4] : List ℚ).length - 2)) :=
  ⟨by norm_num, claim2_result_lengths_amended [1, 2, 3, 4] 2 (by norm_num) (fun _ => 0)⟩

/-- C3 counterexample: rolling_volatility_np returns a result for a
sequence whose last price is negative (its positivity loop never inspects
the final price), and rolling_volatility returns a result for a sequence
with a negative first price (it performs no positivity check at all); the
log stand-in is the identically-zero function, the ok/error outcome being
independent of the values of the logarithms. -/
theorem claim3_counterexample :
    rolling_volatility_np (fun _ => 0) [1, -1] 1 = .ok [0] ∧
    rolling_volatility (fun _ => 0) [-1, 1] 1 = .ok [0] := by
  constructor
  · norm_num [rolling_volatility_np, log_returns_checked, logReturnsLoop,
      compute_std_sq, List.range_succ]
  · simp only [rolling_volatility, compute_log_returns]
    norm_num [compute_std_sq, List.range_succ]

/-- C3 (amended): for valid sizes, rolling_volatility_np fails with the
positivity condition exactly when one of the first N - 1 prices is
non-positive — a non-positive final price is never detected — and the list
version rolling_volatility performs no positivity validation at all and
returns a result whatever the prices are. -/
theorem claim3_volatility_positivity_amended (log : ℚ → ℚ) (S : List ℚ) (w : ℕ)
    (hw : 1 ≤ w) (h2 : 2 ≤ S.length) (hwin : w < S.length) :
    (rolling_volatility_np log S w = .error .priceMustBePositive ↔
      ∃ i, i < S.length - 1 ∧ S.getD i 0 ≤ 0) ∧
    (∃ res, rolling_volatility log S w = .ok res) := by
  have h0 : ¬ w = 0 := by omega
  constructor
  · by_cases hex : ∃ i, i < S.length - 1 ∧ S.getD i 0 ≤ 0
    · have herr : log_returns_checked log S = .error .priceMustBePositive := by
        rw [log_returns_checked]
        apply logReturnsLoop_err
        obtain ⟨i, hi, hle⟩ := hex
        exact ⟨i, List.mem_range.mpr hi, hle⟩
      rw [rolling_volatility_np, if_neg h0, if_neg (by omega), if_neg (by omega), herr]
      exact iff_of_true rfl hex
    · have hpos : ∀ i, i < S.length - 1 → 0 < S.getD i 0 := by
        intro i hi
        by_contra hle
        exact hex ⟨i, hi, not_lt.1 hle⟩
      obtain ⟨res, hres, -⟩ := rolling_volatility_np_ok log S w hw h2 hwin hpos
      refine iff_of_false ?_ hex
      rw [hres]
      simp
  · exact ⟨_, rolling_volatility_ok log S w hw h2 hwin⟩

/-- Witness for C3 at window 1 over the all-positive sequence 1, 2, 3 with
the identically-zero stand-in for the logarithm. -/
theorem claim3_witness :
    1 ≤ 1 ∧ 2 ≤ ([1, 2, 3] : List ℚ).length ∧ 1 < ([1, 2, 3] : List ℚ).length ∧
    ((rolling_volatility_np (fun _ => 0) [1, 2, 3] 1 = .error .priceMustBePositive ↔
        ∃ i, i < ([1, 2, 3] : List ℚ).length - 1 ∧ ([1, 2, 3] : List ℚ).getD i 0 ≤ 0) ∧
      (∃ res, rolling_volatility (fun _ => 0) [1, 2, 3] 1 = .ok res)) :=
  ⟨by norm_num, by norm_num, by norm_num,
    claim3_volatility_positivity_amended (fun _ => 0) [1, 2, 3] 1
      (by norm_num) (by norm_num) (by norm_num)⟩

/-- C4 counterexample: with three prices (two log returns) and window 2,
window_size equals the number of log returns — not strictly less — yet both
rolling_volatility and rolling_volatility_np produce a one-element result
instead of failing, refuting the claimed strictness boundary. -/
theorem claim4_counterexample :
    rolling_volatility (fun _ => 0) [1, 1, 1] 2 = .ok [0] ∧
    rolling_volatility_np (fun _ => 0) [1, 1, 1] 2 = .ok [0] := by
  constructor
  · simp only [rolling_volatility, compute_log_returns]
    norm_num [compute_std_sq, List.range_succ]
    simp
  · norm_num [rolling_volatility_np, log_returns_checked, logReturnsLoop,
      compute_std_sq, List.range_succ]

/-- C4 (amended): failure boundaries of the two rolling-volatility entry
points. Window 0 fails with the zero-window condition in both; with fewer
than 2 prices the np variant fails with the insufficient-data condition
while the list variant reuses the window-too-large condition; with
window_size >= N the np variant fails with the window-bound condition and
the list variant with the window-too-large condition; and for
1 <= window_size <= N - 1 (window_size equal to the number N - 1 of log
returns included) the list variant produces a result, as does the np
variant when additionally every one of the first N - 1 prices is
positive. -/
theorem claim4_volatility_preconditions_amended (log : ℚ → ℚ) (S : List ℚ) (w : ℕ) :
    (w = 0 → rolling_volatility log S w = .error .windowSizeCannotBeZero ∧
      rolling_volatility_np log S w = .error .windowSizeCannotBeZero) ∧
    (1 ≤ w → S.length < 2 →
      rolling_volatility log S w = .error .windowTooLargeForReturns ∧
      rolling_volatility_np log S w = .error .insufficientDataTwoPrices) ∧
    (1 ≤ w → 2 ≤ S.length → S.length ≤ w →
      rolling_volatility log S w = .error .windowTooLargeForReturns ∧
      rolling_volatility_np log S w = .error .windowMustBeSmallerThanPrices) ∧
    (1 ≤ w → w < S.length →
      (∃ res, rolling_volatility log S w = .ok res) ∧
      ((∀ i, i < S.length - 1 → 0 < S.getD i 0) →
        ∃ res, rolling_volatility_np log S w = .ok res)) := by
  refine ⟨?_, ?_, ?_, ?_⟩
  · rintro rfl
    constructor
    · simp [rolling_volatility]
    · rw [rolling_volatility_np, if_pos rfl]
  · intro hw h2
    have hlr := compute_log_returns_length log S
    constructor
    · simp only [rolling_volatility]
      rw [if_neg (by omega), if_pos (Or.inr (by omega))]
    · rw [rolling_volatility_np, if_neg (by omega), if_pos h2]
  · intro hw h2 hle
    have hlr := compute_log_returns_length log S
    constructor
    · simp only [rolling_volatility]
      rw [if_neg (by omega), if_pos (Or.inr (by omega))]
    · rw [rolling_volatility_np, if_neg (by omega), if_neg (by omega), if_pos (by omega)]
  · intro hw hwin
    refine ⟨⟨_, rolling_volatility_ok log S w hw (by omega) hwin⟩, ?_⟩
    intro hpos
    obtain ⟨res, hres, -⟩ := rolling_volatility_np_ok log S w hw (by omega) hwin hpos
    exact ⟨res, hres⟩

/-- Witness for C4 at window 1 over the sequence 1, 2, 3 with the
identically-zero stand-in for the logarithm. -/
theorem claim4_witness :
    ((1 : ℕ) ≠ 0) ∧
    (((1:ℕ) = 0 → rolling_volatility (fun _ => 0) [1, 2, 3] 1 = .error .windowSizeCannotBeZero ∧
        rolling_volatility_np (fun _ => 0) [1, 2, 3] 1 = .error .windowSizeCannotBeZero) ∧
      (1 ≤ 1 → ([1, 2, 3] : List ℚ).length < 2 →
        rolling_volatility (fun _ => 0) [1, 2, 3] 1 = .error .windowTooLargeForReturns ∧
        rolling_volatility_np (fun _ => 0) [1, 2, 3] 1 = .error .insufficientDataTwoPrices) ∧
      (1 ≤ 1 → 2 ≤ ([1, 2, 3] : List ℚ).length → ([1, 2, 3] : List ℚ).length ≤ 1 →
        rolling_volatility (fun _ => 0) [1, 2, 3] 1 = .error .windowTooLargeForReturns ∧
        rolling_volatility_np (fun _ => 0) [1, 2, 3] 1 = .error .windowMustBeSmallerThanPrices) ∧
      (1 ≤ 1 → 1 < ([1, 2, 3] : List ℚ).length →
        (∃ res, rolling_volatility (fun _ => 0) [1, 2, 3] 1 = .ok res) ∧
        ((∀ i, i < ([1, 2, 3] : List ℚ).length - 1 → 0 < ([1, 2, 3] : List ℚ).getD i 0) →
          ∃ res, rolling_volatility_np (fun _ => 0) [1, 2, 3] 1 = .ok res))) :=
  ⟨by norm_num, claim4_volatility_preconditions_amended (fun _ => 0) [1, 2, 3] 1⟩

end Finmath
